import Mathlib

/-!
Shallow embedding of the core of `best_trading_strategy_finder` (src/code.py):
the trend segmenter `find_monotonicity`, the signal extractor
`find_reasonable_times_to_sell`, and the two recursive strategy-tree builders
`compute_all_possible_trading_strategies` (exhaustive) and
`compute_smart_possible_trading_strategies` (profitability-pruned).

Prices and money amounts are modelled as rationals (the Python code uses
floats, but every operation the claims depend on — subtraction, sign,
comparison, floor division — is exact on the inputs considered).  Timestamps
are naturals (the loader indexes ticks by `numpy.arange`).  The Python float
`inf` used to initialize `sold_price` is modelled as `none : Option ℚ`.
Functions that can raise (`IndexError` on an all-constant series) return
`Option`.

The builders recurse on shrinking candidate lists.  To keep every definition
kernel-computable they are implemented by structural recursion on an explicit
bound `fuel`, instantiated with `buys.length + sells.length`, which the
termination argument of the source shows is always sufficient; the theorems
`computeAll_cash`, `computeAll_pos`, `computeSmart_cash` and
`computeSmart_pos` below recover the exact recursion equations of the Python
source, so the embedding satisfies the same defining equations.
-/

namespace Trading

/-- Sign of a rational, mirroring `numpy.sign` (returns `1`, `-1` or `0`). -/
def sign (x : ℚ) : ℚ := if 0 < x then 1 else if x < 0 then -1 else 0

/-- Consecutive differences, mirroring `numpy.diff`: `d[i] = a[i+1] - a[i]`. -/
def diffs (a : List ℚ) : List ℚ := List.zipWith (fun x y => y - x) a a.tail

/-- The loop of `find_monotonicity` (src/code.py lines 53-57): given the
already-assigned previous entry `prev`, each remaining difference `di`
produces `prev` when `di == 0` or `sign di == sign prev`, and `-prev`
otherwise. -/
def monoLoop (prev : ℚ) : List ℚ → List ℚ
  | [] => []
  | di :: rest =>
      let cur := if di = 0 ∨ sign di = sign prev then prev else -prev
      cur :: monoLoop cur rest

/-- Embedding of `find_monotonicity` (src/code.py lines 28-58).  `none`
models the `IndexError` raised by `numpy.where(d!=0)[0][0]` when no
difference is nonzero (the spec's `DataError`); otherwise entry 0 is the
sign of the first nonzero difference and the loop `monoLoop` processes the
remaining differences. -/
def find_monotonicity (a : List ℚ) : Option (List ℚ) :=
  match (diffs a).find? (fun x => decide (x ≠ 0)) with
  | none => none
  | some d0 =>
    match diffs a with
    | [] => none
    | _ :: rest => some (sign d0 :: monoLoop (sign d0) rest)

/-- Test `v < 0` on an optional value; `none` models pandas `NaN`, for which
`NaN < 0` is false. -/
def oltNeg : Option ℚ → Bool
  | none => false
  | some q => decide (q < 0)

/-- Embedding of `find_reasonable_times_to_sell` (src/code.py lines 60-82).
The input is the bid column indexed by times `0..n-1`.  The monotonicity
series `m` is indexed by times `1..n-1`; its pandas `.diff()` holds `NaN` at
the first index and `m[k]-m[k-1]` afterwards; `.shift(-1)` drops the first
value and appends `NaN`; the filter keeps the times where that shifted value
is `< 0`.  `none` propagates a trend-detection failure. -/
def find_reasonable_times_to_sell (price_bid : List ℚ) : Option (List ℕ) :=
  (find_monotonicity price_bid).map (fun m =>
    (((List.range' 1 m.length).zip ((diffs m).map some ++ [none])).filter
      (fun p => oltNeg p.2)).map Prod.fst)

/-- Modelled from the spec (§4.2, step 3, the sentence cited by claim C7):
`Δm` is "indexed by `t[2..n-1]`" and "a timestamp `t_k` (from `Δm`'s
domain) qualifies if `Δm[k+1] < 0`".  With the monotonicity array `m`
indexed 0-based (`m[k-1]` sits at time `k`), `Δm` at time `k` is
`m[k-1] - m[k-2]`, defined for `2 ≤ k ≤ n-1 = m.length`; a time `t` from
that domain qualifies if `t+1` is also in the domain and `Δm` at `t+1`,
i.e. `m[t] - m[t-1]`, is negative. -/
def sell_times_spec (price_bid : List ℚ) : Option (List ℕ) :=
  (find_monotonicity price_bid).map (fun m =>
    (List.range' 2 (m.length - 1)).filter
      (fun t => decide (t + 1 ≤ m.length) && decide (m.getD t 0 - m.getD (t - 1) 0 < 0)))

/-- One tick's quotes: a bid and an ask price. -/
structure Price where
  bid : ℚ
  ask : ℚ
deriving DecidableEq

/-- Portfolio state of the exhaustive builder: the Python dict holds either
the key `money` or the keys `asset` and `savings`. -/
inductive AState : Type where
  | cash (money : ℚ)
  | pos (asset savings : ℚ)
deriving DecidableEq

/-- Portfolio state of the pruned builder: the Python dict additionally
holds `sold_price` (with `float('Inf')` modelled as `none`) in the cash
shape and `paid_price` in the position shape. -/
inductive SState : Type where
  | cash (money : ℚ) (sold_price : Option ℚ)
  | pos (asset savings paid_price : ℚ)
deriving DecidableEq

/-- Forget the pruning bookkeeping fields of a pruned-builder state. -/
def SState.erase : SState → AState
  | .cash m _ => .cash m
  | .pos a s _ => .pos a s

/-- Money values stored in an exhaustive-builder state. -/
def AState.moneyVals : AState → List ℚ
  | .cash m => [m]
  | .pos _ _ => []

/-- Money values stored in a pruned-builder state. -/
def SState.moneyVals : SState → List ℚ
  | .cash m _ => [m]
  | .pos _ _ _ => []

mutual
/-- Strategy tree: a state together with a finite map from decision
timestamps to child trees (the Python nested-dict result). -/
inductive Tr (σ : Type) : Type where
  | node : σ → Kids σ → Tr σ
/-- Children of a strategy-tree node: an association list from decision
timestamps to subtrees. -/
inductive Kids (σ : Type) : Type where
  | nil : Kids σ
  | cons : ℕ → Tr σ → Kids σ → Kids σ
end

/-- Build children from a list of labelled subtrees. -/
def toKids {σ : Type} : List (ℕ × Tr σ) → Kids σ
  | [] => .nil
  | (b, t) :: r => .cons b t (toKids r)

/-- Children as a list of labelled subtrees. -/
def Kids.toList {σ : Type} : Kids σ → List (ℕ × Tr σ)
  | .nil => []
  | .cons b t r => (b, t) :: Kids.toList r

/-- The state stored at the root of a tree. -/
def Tr.state {σ : Type} : Tr σ → σ
  | .node st _ => st

/-- The labelled children of the root of a tree. -/
def Tr.children {σ : Type} : Tr σ → List (ℕ × Tr σ)
  | .node _ ch => ch.toList

mutual
/-- All money values stored at nodes of a tree, root first. -/
def Tr.vals {σ : Type} (f : σ → List ℚ) : Tr σ → List ℚ
  | .node st ch => f st ++ Kids.vals f ch
/-- All money values stored at nodes of a forest. -/
def Kids.vals {σ : Type} (f : σ → List ℚ) : Kids σ → List ℚ
  | .nil => []
  | .cons _ t r => Tr.vals f t ++ Kids.vals f r
end

mutual
/-- Money values stored at the leaves (childless nodes) of a tree. -/
def Tr.leafVals {σ : Type} (f : σ → List ℚ) : Tr σ → List ℚ
  | .node st .nil => f st
  | .node _ (.cons _ t r) => Tr.leafVals f t ++ Kids.leafVals f r
/-- Money values stored at the leaves of a forest. -/
def Kids.leafVals {σ : Type} (f : σ → List ℚ) : Kids σ → List ℚ
  | .nil => []
  | .cons _ t r => Tr.leafVals f t ++ Kids.leafVals f r
end

mutual
/-- Depth of a tree: a childless node has depth 0. -/
def Tr.depth {σ : Type} : Tr σ → ℕ
  | .node _ ch => Kids.depth ch
/-- One plus the largest depth of a tree in the forest (0 if empty). -/
def Kids.depth {σ : Type} : Kids σ → ℕ
  | .nil => 0
  | .cons _ t r => max (Tr.depth t + 1) (Kids.depth r)
end

/-- Reachability inside a tree: `Tr.Sub t u` says `u` is `t` itself or a
descendant of `t` through the child maps. -/
inductive Tr.Sub {σ : Type} : Tr σ → Tr σ → Prop where
  | refl (t : Tr σ) : Tr.Sub t t
  | child {t u v : Tr σ} (b : ℕ) (hm : (b, u) ∈ t.children) (h : Tr.Sub u v) : Tr.Sub t v

/-- Comparison `ask < sold_price` of the pruned builder, where
`sold_price = none` models the initial `float('Inf')` (everything is below
infinity). -/
def askLtSold (ask : ℚ) : Option ℚ → Bool
  | none => true
  | some sp => decide (ask < sp)

/-- Fuel-indexed form of `compute_all_possible_trading_strategies`
(src/code.py lines 108-132).  At a cash state every eligible buy time
becomes an edge; the purchased quantity is the floor of `money / ask`
(integer lots) and the remainder stays as savings.  At a position state
every eligible sell time becomes an edge and the proceeds
`asset * bid + savings` become the new money.  Both candidate lists are
restricted to strictly later times before recursing. -/
def computeAllFuel (trading_data : ℕ → Price) : ℕ → List ℕ → List ℕ → AState → Tr AState
  | 0, _, _, st => .node st .nil
  | fuel + 1, buys, sells, .cash money =>
      .node (.cash money) (toKids (buys.map (fun b =>
        (b, computeAllFuel trading_data fuel
              (buys.filter (fun x => decide (b < x)))
              (sells.filter (fun x => decide (b < x)))
              (.pos ((⌊money / (trading_data b).ask⌋ : ℤ) : ℚ)
                    (money - ((⌊money / (trading_data b).ask⌋ : ℤ) : ℚ) * (trading_data b).ask))))))
  | fuel + 1, buys, sells, .pos asset savings =>
      .node (.pos asset savings) (toKids (sells.map (fun s =>
        (s, computeAllFuel trading_data fuel
              (buys.filter (fun x => decide (s < x)))
              (sells.filter (fun x => decide (s < x)))
              (.cash (asset * (trading_data s).bid + savings))))))

/-- Embedding of `compute_all_possible_trading_strategies`: the recursion of
the source realized with the always-sufficient bound
`buys.length + sells.length`; see `computeAll_cash` and `computeAll_pos`
for the recovered recursion equations. -/
def compute_all_possible_trading_strategies (trading_data : ℕ → Price)
    (buys sells : List ℕ) (st : AState) : Tr AState :=
  computeAllFuel trading_data (buys.length + sells.length) buys sells st

/-- Fuel-indexed form of `compute_smart_possible_trading_strategies`
(src/code.py lines 134-167).  Same shape as the exhaustive builder, but at
a cash state only buy times whose ask price is strictly below the
remembered `sold_price` are branched on, the new position also records the
`paid_price`, at a position state only sell times whose bid price is
strictly above `paid_price` are branched on, and the new cash state records
the realized bid as `sold_price`. -/
def computeSmartFuel (trading_data : ℕ → Price) : ℕ → List ℕ → List ℕ → SState → Tr SState
  | 0, _, _, st => .node st .nil
  | fuel + 1, buys, sells, .cash money sold =>
      .node (.cash money sold)
        (toKids ((buys.filter (fun b => askLtSold (trading_data b).ask sold)).map (fun b =>
          (b, computeSmartFuel trading_data fuel
                (buys.filter (fun x => decide (b < x)))
                (sells.filter (fun x => decide (b < x)))
                (.pos ((⌊money / (trading_data b).ask⌋ : ℤ) : ℚ)
                      (money - ((⌊money / (trading_data b).ask⌋ : ℤ) : ℚ) * (trading_data b).ask)
                      ((trading_data b).ask))))))
  | fuel + 1, buys, sells, .pos asset savings paid =>
      .node (.pos asset savings paid)
        (toKids ((sells.filter (fun s => decide (paid < (trading_data s).bid))).map (fun s =>
          (s, computeSmartFuel trading_data fuel
                (buys.filter (fun x => decide (s < x)))
                (sells.filter (fun x => decide (s < x)))
                (.cash (asset * (trading_data s).bid + savings) (some ((trading_data s).bid)))))))

/-- Embedding of `compute_smart_possible_trading_strategies`, with the
always-sufficient bound `buys.length + sells.length`; see
`computeSmart_cash` and `computeSmart_pos` for the recovered recursion
equations. -/
def compute_smart_possible_trading_strategies (trading_data : ℕ → Price)
    (buys sells : List ℕ) (st : SState) : Tr SState :=
  computeSmartFuel trading_data (buys.length + sells.length) buys sells st

/-- Concrete price table used for counterexamples and witnesses: ask prices
10 at time 0 and 25 at time 3, bid price 20 at time 1, dummy quotes
elsewhere. -/
def tdC : ℕ → Price := fun t =>
  if t = 0 then ⟨1, 10⟩ else if t = 1 then ⟨20, 21⟩ else if t = 3 then ⟨24, 25⟩ else ⟨1, 1⟩

/-- Constant price table (bid 1, ask 3) used for witnesses. -/
def tdW : ℕ → Price := fun _ => ⟨1, 3⟩

/-! Infrastructure lemmas. -/

theorem length_filter_lt_of_mem {l : List ℕ} {b : ℕ} (hb : b ∈ l) :
    (l.filter (fun x => decide (b < x))).length < l.length := by
  induction l with
  | nil => cases hb
  | cons a r ih =>
      rcases List.mem_cons.mp hb with h | h
      · subst h
        simp only [List.filter_cons, decide_eq_true_eq]
        rw [if_neg (lt_irrefl b)]
        have := List.length_filter_le (fun x => decide (b < x)) r
        simp only [List.length_cons]
        omega
      · simp only [List.filter_cons, decide_eq_true_eq]
        by_cases hba : b < a
        · rw [if_pos hba]
          simp only [List.length_cons]
          exact Nat.succ_lt_succ (ih h)
        · rw [if_neg hba]
          simp only [List.length_cons]
          exact Nat.lt_succ_of_lt (ih h)

theorem length_filter_le_self {l : List ℕ} {b : ℕ} :
    (l.filter (fun x => decide (b < x))).length ≤ l.length :=
  List.length_filter_le _ l

theorem toList_toKids {σ : Type} (L : List (ℕ × Tr σ)) : (toKids L).toList = L := by
  induction L with
  | nil => rfl
  | cons p r ih => cases p; simp [toKids, Kids.toList, ih]

theorem computeAllFuel_eq (td : ℕ → Price) :
    ∀ (f1 f2 : ℕ) (buys sells : List ℕ) (st : AState),
      buys.length + sells.length ≤ f1 → buys.length + sells.length ≤ f2 →
      computeAllFuel td f1 buys sells st = computeAllFuel td f2 buys sells st := by
  intro f1
  induction f1 with
  | zero =>
      intro f2 buys sells st h1 _
      have hb : buys = [] := List.length_eq_zero.mp (by omega)
      have hs : sells = [] := List.length_eq_zero.mp (by omega)
      subst hb; subst hs
      cases f2 with
      | zero => rfl
      | succ k => cases st <;> simp [computeAllFuel, toKids]
  | succ n ih =>
      intro f2 buys sells st h1 h2
      cases f2 with
      | zero =>
          have hb : buys = [] := List.length_eq_zero.mp (by omega)
          have hs : sells = [] := List.length_eq_zero.mp (by omega)
          subst hb; subst hs
          cases st <;> simp [computeAllFuel, toKids]
      | succ k =>
          cases st with
          | cash m =>
              simp only [computeAllFuel]
              congr 1
              congr 1
              apply List.map_congr_left
              intro b hb
              have hlt := length_filter_lt_of_mem (b := b) hb
              have hle : (sells.filter (fun x => decide (b < x))).length ≤ sells.length :=
                length_filter_le_self
              exact congrArg _ (ih k _ _ _ (by omega) (by omega))
          | pos a sav =>
              simp only [computeAllFuel]
              congr 1
              congr 1
              apply List.map_congr_left
              intro s hs
              have hlt := length_filter_lt_of_mem (b := s) hs
              have hle : (buys.filter (fun x => decide (s < x))).length ≤ buys.length :=
                length_filter_le_self
              exact congrArg _ (ih k _ _ _ (by omega) (by omega))

theorem computeSmartFuel_eq (td : ℕ → Price) :
    ∀ (f1 f2 : ℕ) (buys sells : List ℕ) (st : SState),
      buys.length + sells.length ≤ f1 → buys.length + sells.length ≤ f2 →
      computeSmartFuel td f1 buys sells st = computeSmartFuel td f2 buys sells st := by
  intro f1
  induction f1 with
  | zero =>
      intro f2 buys sells st h1 _
      have hb : buys = [] := List.length_eq_zero.mp (by omega)
      have hs : sells = [] := List.length_eq_zero.mp (by omega)
      subst hb; subst hs
      cases f2 with
      | zero => rfl
      | succ k => cases st <;> simp [computeSmartFuel, toKids]
  | succ n ih =>
      intro f2 buys sells st h1 h2
      cases f2 with
      | zero =>
          have hb : buys = [] := List.length_eq_zero.mp (by omega)
          have hs : sells = [] := List.length_eq_zero.mp (by omega)
          subst hb; subst hs
          cases st <;> simp [computeSmartFuel, toKids]
      | succ k =>
          cases st with
          | cash m sold =>
              simp only [computeSmartFuel]
              congr 1
              congr 1
              apply List.map_congr_left
              intro b hb
              have hb' : b ∈ buys := List.mem_of_mem_filter hb
              have hlt := length_filter_lt_of_mem (b := b) hb'
              have hle : (sells.filter (fun x => decide (b < x))).length ≤ sells.length :=
                length_filter_le_self
              exact congrArg _ (ih k _ _ _ (by omega) (by omega))
          | pos a sav paid =>
              simp only [computeSmartFuel]
              congr 1
              congr 1
              apply List.map_congr_left
              intro s hs
              have hs' : s ∈ sells := List.mem_of_mem_filter hs
              have hlt := length_filter_lt_of_mem (b := s) hs'
              have hle : (buys.filter (fun x => decide (s < x))).length ≤ buys.length :=
                length_filter_le_self
              exact congrArg _ (ih k _ _ _ (by omega) (by omega))

theorem computeAll_cash (td : ℕ → Price) (buys sells : List ℕ) (m : ℚ) :
    compute_all_possible_trading_strategies td buys sells (.cash m) =
      .node (.cash m) (toKids (buys.map (fun b =>
        (b, compute_all_possible_trading_strategies td
              (buys.filter (fun x => decide (b < x)))
              (sells.filter (fun x => decide (b < x)))
              (.pos ((⌊m / (td b).ask⌋ : ℤ) : ℚ)
                    (m - ((⌊m / (td b).ask⌋ : ℤ) : ℚ) * (td b).ask)))))) := by
  unfold compute_all_possible_trading_strategies
  cases hn : buys.length + sells.length with
  | zero =>
      have hb : buys = [] := List.length_eq_zero.mp (by omega)
      subst hb
      simp [computeAllFuel, toKids]
  | succ n =>
      simp only [computeAllFuel]
      congr 1
      congr 1
      apply List.map_congr_left
      intro b hb
      have hlt := length_filter_lt_of_mem (b := b) hb
      have hle : (sells.filter (fun x => decide (b < x))).length ≤ sells.length :=
        length_filter_le_self
      exact congrArg _ (computeAllFuel_eq td n _ _ _ _ (by omega) (by omega))

theorem computeAll_pos (td : ℕ → Price) (buys sells : List ℕ) (a sav : ℚ) :
    compute_all_possible_trading_strategies td buys sells (.pos a sav) =
      .node (.pos a sav) (toKids (sells.map (fun s =>
        (s, compute_all_possible_trading_strategies td
              (buys.filter (fun x => decide (s < x)))
              (sells.filter (fun x => decide (s < x)))
              (.cash (a * (td s).bid + sav)))))) := by
  unfold compute_all_possible_trading_strategies
  cases hn : buys.length + sells.length with
  | zero =>
      have hs : sells = [] := List.length_eq_zero.mp (by omega)
      subst hs
      simp [computeAllFuel, toKids]
  | succ n =>
      simp only [computeAllFuel]
      congr 1
      congr 1
      apply List.map_congr_left
      intro s hs
      have hlt := length_filter_lt_of_mem (b := s) hs
      have hle : (buys.filter (fun x => decide (s < x))).length ≤ buys.length :=
        length_filter_le_self
      exact congrArg _ (computeAllFuel_eq td n _ _ _ _ (by omega) (by omega))

theorem computeSmart_cash (td : ℕ → Price) (buys sells : List ℕ) (m : ℚ) (sold : Option ℚ) :
    compute_smart_possible_trading_strategies td buys sells (.cash m sold) =
      .node (.cash m sold)
        (toKids ((buys.filter (fun b => askLtSold (td b).ask sold)).map (fun b =>
          (b, compute_smart_possible_trading_strategies td
                (buys.filter (fun x => decide (b < x)))
                (sells.filter (fun x => decide (b < x)))
                (.pos ((⌊m / (td b).ask⌋ : ℤ) : ℚ)
                      (m - ((⌊m / (td b).ask⌋ : ℤ) : ℚ) * (td b).ask)
                      ((td b).ask)))))) := by
  unfold compute_smart_possible_trading_strategies
  cases hn : buys.length + sells.length with
  | zero =>
      have hb : buys = [] := List.length_eq_zero.mp (by omega)
      subst hb
      simp [computeSmartFuel, toKids]
  | succ n =>
      simp only [computeSmartFuel]
      congr 1
      congr 1
      apply List.map_congr_left
      intro b hb
      have hb' : b ∈ buys := List.mem_of_mem_filter hb
      have hlt := length_filter_lt_of_mem (b := b) hb'
      have hle : (sells.filter (fun x => decide (b < x))).length ≤ sells.length :=
        length_filter_le_self
      exact congrArg _ (computeSmartFuel_eq td n _ _ _ _ (by omega) (by omega))

theorem computeSmart_pos (td : ℕ → Price) (buys sells : List ℕ) (a sav paid : ℚ) :
    compute_smart_possible_trading_strategies td buys sells (.pos a sav paid) =
      .node (.pos a sav paid)
        (toKids ((sells.filter (fun s => decide (paid < (td s).bid))).map (fun s =>
          (s, compute_smart_possible_trading_strategies td
                (buys.filter (fun x => decide (s < x)))
                (sells.filter (fun x => decide (s < x)))
                (.cash (a * (td s).bid + sav) (some ((td s).bid))))))) := by
  unfold compute_smart_possible_trading_strategies
  cases hn : buys.length + sells.length with
  | zero =>
      have hs : sells = [] := List.length_eq_zero.mp (by omega)
      subst hs
      simp [computeSmartFuel, toKids]
  | succ n =>
      simp only [computeSmartFuel]
      congr 1
      congr 1
      apply List.map_congr_left
      intro s hs
      have hs' : s ∈ sells := List.mem_of_mem_filter hs
      have hlt := length_filter_lt_of_mem (b := s) hs'
      have hle : (buys.filter (fun x => decide (s < x))).length ≤ buys.length :=
        length_filter_le_self
      exact congrArg _ (computeSmartFuel_eq td n _ _ _ _ (by omega) (by omega))

theorem vals_toKids {σ : Type} (f : σ → List ℚ) (L : List (ℕ × Tr σ)) :
    Kids.vals f (toKids L) = (L.map (fun p => Tr.vals f p.2)).flatten := by
  induction L with
  | nil => rfl
  | cons p r ih => cases p; simp [toKids, Kids.vals, ih]

theorem mem_vals_node {σ : Type} (f : σ → List ℚ) (st : σ) (L : List (ℕ × Tr σ)) (q : ℚ) :
    q ∈ Tr.vals f (.node st (toKids L)) ↔ q ∈ f st ∨ ∃ p ∈ L, q ∈ Tr.vals f p.2 := by
  simp only [Tr.vals, vals_toKids, List.mem_append, List.mem_flatten, List.mem_map]
  constructor
  · rintro (h | ⟨l, ⟨p, hp, rfl⟩, hq⟩)
    · exact Or.inl h
    · exact Or.inr ⟨p, hp, hq⟩
  · rintro (h | ⟨p, hp, hq⟩)
    · exact Or.inl h
    · exact Or.inr ⟨Tr.vals f p.2, ⟨p, hp, rfl⟩, hq⟩

theorem state_computeAll (td : ℕ → Price) (buys sells : List ℕ) (st : AState) :
    (compute_all_possible_trading_strategies td buys sells st).state = st := by
  unfold compute_all_possible_trading_strategies
  cases buys.length + sells.length <;> cases st <;> rfl

theorem state_computeSmart (td : ℕ → Price) (buys sells : List ℕ) (st : SState) :
    (compute_smart_possible_trading_strategies td buys sells st).state = st := by
  unfold compute_smart_possible_trading_strategies
  cases buys.length + sells.length <;> cases st <;> rfl

theorem children_computeAll_cash (td : ℕ → Price) (buys sells : List ℕ) (m : ℚ) :
    (compute_all_possible_trading_strategies td buys sells (.cash m)).children =
      buys.map (fun b =>
        (b, compute_all_possible_trading_strategies td
              (buys.filter (fun x => decide (b < x)))
              (sells.filter (fun x => decide (b < x)))
              (.pos ((⌊m / (td b).ask⌋ : ℤ) : ℚ)
                    (m - ((⌊m / (td b).ask⌋ : ℤ) : ℚ) * (td b).ask)))) := by
  rw [computeAll_cash]
  simp [Tr.children, toList_toKids]

theorem children_computeAll_pos (td : ℕ → Price) (buys sells : List ℕ) (a sav : ℚ) :
    (compute_all_possible_trading_strategies td buys sells (.pos a sav)).children =
      sells.map (fun s =>
        (s, compute_all_possible_trading_strategies td
              (buys.filter (fun x => decide (s < x)))
              (sells.filter (fun x => decide (s < x)))
              (.cash (a * (td s).bid + sav)))) := by
  rw [computeAll_pos]
  simp [Tr.children, toList_toKids]

theorem children_computeSmart_cash (td : ℕ → Price) (buys sells : List ℕ) (m : ℚ)
    (sold : Option ℚ) :
    (compute_smart_possible_trading_strategies td buys sells (.cash m sold)).children =
      (buys.filter (fun b => askLtSold (td b).ask sold)).map (fun b =>
        (b, compute_smart_possible_trading_strategies td
              (buys.filter (fun x => decide (b < x)))
              (sells.filter (fun x => decide (b < x)))
              (.pos ((⌊m / (td b).ask⌋ : ℤ) : ℚ)
                    (m - ((⌊m / (td b).ask⌋ : ℤ) : ℚ) * (td b).ask)
                    ((td b).ask)))) := by
  rw [computeSmart_cash]
  simp [Tr.children, toList_toKids]

theorem children_computeSmart_pos (td : ℕ → Price) (buys sells : List ℕ) (a sav paid : ℚ) :
    (compute_smart_possible_trading_strategies td buys sells (.pos a sav paid)).children =
      (sells.filter (fun s => decide (paid < (td s).bid))).map (fun s =>
        (s, compute_smart_possible_trading_strategies td
              (buys.filter (fun x => decide (s < x)))
              (sells.filter (fun x => decide (s < x)))
              (.cash (a * (td s).bid + sav) (some ((td s).bid))))) := by
  rw [computeSmart_pos]
  simp [Tr.children, toList_toKids]

theorem sub_computeAll (td : ℕ → Price) {t u : Tr AState} (h : Tr.Sub t u) :
    ∀ buys sells st, t = compute_all_possible_trading_strategies td buys sells st →
    ∃ buys' sells' st', u = compute_all_possible_trading_strategies td buys' sells' st' := by
  induction h with
  | refl t => exact fun buys sells st ht => ⟨buys, sells, st, ht⟩
  | child b hm hsub ih =>
      intro buys sells st ht
      rw [ht] at hm
      cases st with
      | cash m =>
          rw [children_computeAll_cash] at hm
          obtain ⟨b0, _, heq⟩ := List.mem_map.mp hm
          obtain ⟨hb0, hu⟩ := Prod.mk.injEq .. ▸ heq
          exact ih _ _ _ hu.symm
      | pos a sav =>
          rw [children_computeAll_pos] at hm
          obtain ⟨s0, _, heq⟩ := List.mem_map.mp hm
          obtain ⟨hs0, hu⟩ := Prod.mk.injEq .. ▸ heq
          exact ih _ _ _ hu.symm

theorem sub_computeSmart (td : ℕ → Price) {t u : Tr SState} (h : Tr.Sub t u) :
    ∀ buys sells st, t = compute_smart_possible_trading_strategies td buys sells st →
    ∃ buys' sells' st', u = compute_smart_possible_trading_strategies td buys' sells' st' := by
  induction h with
  | refl t => exact fun buys sells st ht => ⟨buys, sells, st, ht⟩
  | child b hm hsub ih =>
      intro buys sells st ht
      rw [ht] at hm
      cases st with
      | cash m sold =>
          rw [children_computeSmart_cash] at hm
          obtain ⟨b0, _, heq⟩ := List.mem_map.mp hm
          obtain ⟨hb0, hu⟩ := Prod.mk.injEq .. ▸ heq
          exact ih _ _ _ hu.symm
      | pos a sav paid =>
          rw [children_computeSmart_pos] at hm
          obtain ⟨s0, _, heq⟩ := List.mem_map.mp hm
          obtain ⟨hs0, hu⟩ := Prod.mk.injEq .. ▸ heq
          exact ih _ _ _ hu.symm

theorem buy_arith {m a : ℚ} (hm : 0 ≤ m) (ha : 0 < a) :
    ((⌊m / a⌋ : ℤ) : ℚ) * a + (m - ((⌊m / a⌋ : ℤ) : ℚ) * a) = m ∧
    (∃ n : ℕ, ((⌊m / a⌋ : ℤ) : ℚ) = (n : ℚ)) ∧
    0 ≤ m - ((⌊m / a⌋ : ℤ) : ℚ) * a ∧
    m - ((⌊m / a⌋ : ℤ) : ℚ) * a < a := by
  have hfl : (0 : ℤ) ≤ ⌊m / a⌋ := Int.floor_nonneg.mpr (by positivity)
  refine ⟨by ring, ⟨⌊m / a⌋.toNat, ?_⟩, ?_, ?_⟩
  · exact_mod_cast congrArg (fun z : ℤ => (z : ℚ)) (Int.toNat_of_nonneg hfl).symm
  · have h1 : ((⌊m / a⌋ : ℤ) : ℚ) ≤ m / a := Int.floor_le (m / a)
    have h2 : ((⌊m / a⌋ : ℤ) : ℚ) * a ≤ (m / a) * a :=
      mul_le_mul_of_nonneg_right h1 (le_of_lt ha)
    rw [div_mul_cancel₀ m (ne_of_gt ha)] at h2
    linarith
  · have h1 : m / a < ((⌊m / a⌋ : ℤ) : ℚ) + 1 := Int.lt_floor_add_one (m / a)
    have h2 : (m / a) * a < (((⌊m / a⌋ : ℤ) : ℚ) + 1) * a :=
      mul_lt_mul_of_pos_right h1 ha
    rw [div_mul_cancel₀ m (ne_of_gt ha)] at h2
    linarith

theorem floor_zero_of_lt {m a : ℚ} (hm : 0 ≤ m) (hlt : m < a) : ⌊m / a⌋ = 0 := by
  have ha : 0 < a := lt_of_le_of_lt hm hlt
  rw [Int.floor_eq_zero_iff]
  constructor
  · positivity
  · simpa [Set.mem_Ico, div_lt_one ha] using hlt

theorem depth_toKids_le {σ : Type} (L : List (ℕ × Tr σ)) (c : ℕ)
    (h : ∀ p ∈ L, Tr.depth p.2 ≤ c) : Kids.depth (toKids L) ≤ c + 1 := by
  induction L with
  | nil => simp [toKids, Kids.depth]
  | cons p r ih =>
      cases p with
      | mk b t =>
          simp only [toKids, Kids.depth, max_le_iff]
          constructor
          · have hbt : Tr.depth t ≤ c := h (b, t) (by simp)
            omega
          · exact ih (fun p hp => h p (List.mem_cons_of_mem _ hp))

theorem depth_computeAllFuel (td : ℕ → Price) :
    ∀ (fuel : ℕ) (buys sells : List ℕ) (st : AState),
      Tr.depth (computeAllFuel td fuel buys sells st) ≤ fuel := by
  intro fuel
  induction fuel with
  | zero => intro buys sells st; cases st <;> simp [computeAllFuel, Tr.depth, Kids.depth, toKids]
  | succ n ih =>
      intro buys sells st
      cases st with
      | cash m =>
          simp only [computeAllFuel, Tr.depth]
          apply depth_toKids_le
          intro p hp
          obtain ⟨b, _, rfl⟩ := List.mem_map.mp hp
          exact ih _ _ _
      | pos a sav =>
          simp only [computeAllFuel, Tr.depth]
          apply depth_toKids_le
          intro p hp
          obtain ⟨s, _, rfl⟩ := List.mem_map.mp hp
          exact ih _ _ _

theorem depth_computeSmartFuel (td : ℕ → Price) :
    ∀ (fuel : ℕ) (buys sells : List ℕ) (st : SState),
      Tr.depth (computeSmartFuel td fuel buys sells st) ≤ fuel := by
  intro fuel
  induction fuel with
  | zero => intro buys sells st; cases st <;> simp [computeSmartFuel, Tr.depth, Kids.depth, toKids]
  | succ n ih =>
      intro buys sells st
      cases st with
      | cash m sold =>
          simp only [computeSmartFuel, Tr.depth]
          apply depth_toKids_le
          intro p hp
          obtain ⟨b, _, rfl⟩ := List.mem_map.mp hp
          exact ih _ _ _
      | pos a sav paid =>
          simp only [computeSmartFuel, Tr.depth]
          apply depth_toKids_le
          intro p hp
          obtain ⟨s, _, rfl⟩ := List.mem_map.mp hp
          exact ih _ _ _

/-! Trend-segmenter lemmas. -/

theorem diffs_length (a : List ℚ) : (diffs a).length = a.length - 1 := by
  simp only [diffs, List.length_zipWith, List.length_tail]
  omega

theorem monoLoop_cons (p di : ℚ) (r : List ℚ) :
    monoLoop p (di :: r) =
      (if di = 0 ∨ sign di = sign p then p else -p) ::
        monoLoop (if di = 0 ∨ sign di = sign p then p else -p) r := rfl

theorem monoLoop_length (p : ℚ) (l : List ℚ) : (monoLoop p l).length = l.length := by
  induction l generalizing p with
  | nil => rfl
  | cons di r ih => rw [monoLoop_cons]; simp [ih]

theorem sign_pm {d : ℚ} (h : d ≠ 0) : sign d = 1 ∨ sign d = -1 := by
  unfold sign
  rcases lt_trichotomy 0 d with h1 | h1 | h1
  · left; rw [if_pos h1]
  · exact absurd h1.symm h
  · right; rw [if_neg (by linarith), if_pos h1]

theorem sign_idem {p : ℚ} (h : p = 1 ∨ p = -1) : sign p = p := by
  rcases h with rfl | rfl <;> norm_num [sign]

theorem monoLoop_pm {p : ℚ} (hp : p = 1 ∨ p = -1) (l : List ℚ) :
    ∀ x ∈ monoLoop p l, x = 1 ∨ x = -1 := by
  induction l generalizing p with
  | nil => intro x hx; cases hx
  | cons di r ih =>
      intro x hx
      rw [monoLoop_cons] at hx
      have hcur : (if di = 0 ∨ sign di = sign p then p else -p) = 1 ∨
          (if di = 0 ∨ sign di = sign p then p else -p) = -1 := by
        split
        · exact hp
        · rcases hp with rfl | rfl
          · right; norm_num
          · left; norm_num
      rcases List.mem_cons.mp hx with rfl | hx'
      · exact hcur
      · exact ih hcur x hx'

theorem monoLoop_carry : ∀ (l : List ℚ) (p : ℚ) (k : ℕ), k < l.length →
    (l.getD k 0 = 0 ∨ sign (l.getD k 0) = sign ((p :: monoLoop p l).getD k 0)) →
    (monoLoop p l).getD k 0 = (p :: monoLoop p l).getD k 0 := by
  intro l
  induction l with
  | nil => intro p k hk; simp at hk
  | cons di r ih =>
      intro p k hk hcond
      rw [monoLoop_cons] at hcond ⊢
      cases k with
      | zero =>
          simp only [List.getD_cons_zero] at hcond ⊢
          rw [if_pos hcond]
      | succ k' =>
          simp only [List.getD_cons_succ] at hcond ⊢
          exact ih _ k' (by simpa using Nat.lt_of_succ_lt_succ (by simpa using hk)) hcond

theorem find?_first_nonzero : ∀ (l : List ℚ) (j : ℕ), j < l.length →
    (∀ i, i < j → l.getD i 0 = 0) → l.getD j 0 ≠ 0 →
    l.find? (fun x => decide (x ≠ 0)) = some (l.getD j 0) := by
  intro l
  induction l with
  | nil => intro j hj; simp at hj
  | cons c r ih =>
      intro j hj hzero hnz
      cases j with
      | zero =>
          simp only [List.getD_cons_zero] at hnz ⊢
          rw [List.find?_cons_of_pos _ (by simpa using hnz)]
      | succ j' =>
          have hc : c = 0 := by simpa using hzero 0 (Nat.succ_pos j')
          simp only [List.getD_cons_succ] at hnz ⊢
          rw [List.find?_cons_of_neg _ (by simp [hc])]
          exact ih j' (by simpa using Nat.lt_of_succ_lt_succ (by simpa using hj))
            (fun i hi => by simpa using hzero (i + 1) (by omega)) hnz

theorem find_monotonicity_some {a : List ℚ} {d0 : ℚ}
    (h : (diffs a).find? (fun x => decide (x ≠ 0)) = some d0) :
    ∃ c rest, diffs a = c :: rest ∧
      find_monotonicity a = some (sign d0 :: monoLoop (sign d0) rest) := by
  cases hd : diffs a with
  | nil => rw [hd] at h; simp at h
  | cons c rest =>
      refine ⟨c, rest, rfl, ?_⟩
      unfold find_monotonicity
      rw [h, hd]

/-- Claim C4: for every input sequence of length at least 2 whose
consecutive differences are all zero (any constant sequence), the trend
segmenter `find_monotonicity` fails (returns `none`, the embedding of the
`IndexError`/`DataError` raised on line 51 of src/code.py) rather than
returning a result. -/
theorem C4_flat_input_fails (a : List ℚ) (h2 : 2 ≤ a.length)
    (hflat : ∀ x ∈ diffs a, x = 0) : find_monotonicity a = none := by
  unfold find_monotonicity
  have hnone : (diffs a).find? (fun x => decide (x ≠ 0)) = none :=
    List.find?_eq_none.mpr (fun x hx => by simp [hflat x hx])
  rw [hnone]

unseal Rat.sub Rat.add Rat.mul Rat.inv in
/-- Witness for C4 at the constant sequence `[5, 5, 5]`. -/
theorem C4_witness : find_monotonicity [5, 5, 5] = none :=
  C4_flat_input_fails [5, 5, 5] (by decide) (by decide)

/-- Claim C6: for every input of length `n ≥ 2` with at least one nonzero
consecutive difference, `find_monotonicity` succeeds and its output `m` has
length `n - 1`, every entry is `1` or `-1` (never 0), and every entry whose
consecutive difference is zero equals the entry immediately before it
(flat steps carry the preceding direction forward). -/
theorem C6_output_shape (a : List ℚ) (h2 : 2 ≤ a.length)
    (hnz : ∃ x ∈ diffs a, x ≠ 0) :
    ∃ m, find_monotonicity a = some m ∧ m.length = a.length - 1 ∧
      (∀ x ∈ m, x = 1 ∨ x = -1) ∧
      (∀ i, i + 1 < m.length → (diffs a).getD (i + 1) 0 = 0 →
        m.getD (i + 1) 0 = m.getD i 0) := by
  obtain ⟨x, hxmem, hxne⟩ := hnz
  have hsome : ((diffs a).find? (fun x => decide (x ≠ 0))).isSome := by
    rw [List.find?_isSome]
    exact ⟨x, hxmem, by simpa using hxne⟩
  obtain ⟨d0, hd0⟩ := Option.isSome_iff_exists.mp hsome
  have hd0ne : d0 ≠ 0 := by simpa using List.find?_some hd0
  obtain ⟨c, rest, hdiff, hm⟩ := find_monotonicity_some hd0
  refine ⟨sign d0 :: monoLoop (sign d0) rest, hm, ?_, ?_, ?_⟩
  · have h1 : (diffs a).length = a.length - 1 := diffs_length a
    rw [hdiff] at h1
    simp only [List.length_cons] at h1
    simp only [List.length_cons, monoLoop_length]
    omega
  · intro y hy
    rcases List.mem_cons.mp hy with rfl | hy'
    · exact sign_pm hd0ne
    · exact monoLoop_pm (sign_pm hd0ne) rest y hy'
  · intro i hi hflat
    rw [hdiff] at hflat
    simp only [List.length_cons, monoLoop_length] at hi
    simp only [List.getD_cons_succ] at hflat ⊢
    exact monoLoop_carry rest (sign d0) i (by omega) (Or.inl hflat)

unseal Rat.sub Rat.add Rat.mul Rat.inv in
/-- Witness for C6 at the sequence `[1, 2, 2, 1]` (differences `[1, 0, -1]`,
trend `[1, 1, -1]`). -/
theorem C6_witness :
    ∃ m, find_monotonicity [1, 2, 2, 1] = some m ∧ m.length = 4 - 1 ∧
      (∀ x ∈ m, x = 1 ∨ x = -1) ∧
      (∀ i, i + 1 < m.length → (diffs [1, 2, 2, 1]).getD (i + 1) 0 = 0 →
        m.getD (i + 1) 0 = m.getD i 0) :=
  C6_output_shape [1, 2, 2, 1] (by decide) (by decide)

unseal Rat.sub Rat.add Rat.mul Rat.inv Rat.ofScientific in
/-- Claim C8: on the documented example sequence (src/code.py lines 41-47),
`find_monotonicity` returns exactly `[-1, -1, -1, -1, 1, 1, 1]`. -/
theorem C8_documented_example :
    find_monotonicity
        [0.056937, 0.056935, 0.056935, 0.056935, 0.056935, 0.056939, 0.056953, 0.056957] =
      some [-1, -1, -1, -1, 1, 1, 1] := by
  decide

/-- Claim C9: when the first nonzero consecutive difference sits at index
`j > 0`, the trend segmenter assigns entries `0` through `j` all equal to
`sign d[j]`: the leading flat steps receive the direction of the first
subsequent movement. -/
theorem C9_leading_flats (a : List ℚ) (j : ℕ) (hj0 : 0 < j)
    (hjlt : j < (diffs a).length)
    (hzero : ∀ i, i < j → (diffs a).getD i 0 = 0)
    (hnz : (diffs a).getD j 0 ≠ 0) :
    ∃ m, find_monotonicity a = some m ∧
      ∀ i, i ≤ j → m.getD i 0 = sign ((diffs a).getD j 0) := by
  have hfind := find?_first_nonzero (diffs a) j hjlt hzero hnz
  obtain ⟨c, rest, hdiff, hm⟩ := find_monotonicity_some hfind
  set d0 := (diffs a).getD j 0 with hd0def
  refine ⟨sign d0 :: monoLoop (sign d0) rest, hm, ?_⟩
  intro i
  induction i with
  | zero => intro _; simp
  | succ i' ih =>
      intro hle
      have hprev : (sign d0 :: monoLoop (sign d0) rest).getD i' 0 = sign d0 :=
        ih (by omega)
      have hlen : i' < rest.length := by
        have : (diffs a).length = rest.length + 1 := by rw [hdiff]; simp
        omega
      simp only [List.getD_cons_succ]
      have hstep : (monoLoop (sign d0) rest).getD i' 0 =
          (sign d0 :: monoLoop (sign d0) rest).getD i' 0 := by
        apply monoLoop_carry rest (sign d0) i' hlen
        rw [hprev]
        rcases Nat.lt_or_ge (i' + 1) j with hcase | hcase
        · left
          have := hzero (i' + 1) hcase
          rw [hdiff] at this
          simpa using this
        · right
          have hij : i' + 1 = j := by omega
          have hrest : rest.getD i' 0 = d0 := by
            rw [hd0def, ← hij, hdiff]
            simp
          rw [hrest, sign_idem (sign_pm hnz)]
      rw [hstep, hprev]

unseal Rat.sub Rat.add Rat.mul Rat.inv in
/-- Witness for C9 at the sequence `[1, 1, 2]` (differences `[0, 1]`, first
nonzero difference at index `j = 1`). -/
theorem C9_witness :
    ∃ m, find_monotonicity [1, 1, 2] = some m ∧
      ∀ i, i ≤ 1 → m.getD i 0 = sign ((diffs [1, 1, 2]).getD 1 0) :=
  C9_leading_flats [1, 1, 2] 1 (by decide) (by decide) (by decide) (by decide)

/-! Strategy-tree builder claims. -/

unseal Rat.sub Rat.add Rat.mul Rat.inv in
/-- Counterexample for claim C3 as stated: the claim asserts every recursive
call strictly shrinks *both* candidate sets.  On `buys = [0]`,
`sells = [1]` the exhaustive builder takes the buy edge at time 0 (first
conjunct: the root has exactly that child), and the sell-candidate list
passed to that recursive call, `[1].filter (0 < ·)`, is `[1]` itself —
unchanged, not strictly smaller (second conjunct). -/
theorem C3_counterexample :
    ((compute_all_possible_trading_strategies tdW [0] [1] (AState.cash 10)).children.map
        Prod.fst = [0]) ∧
      [1].filter (fun x => decide ((0 : ℕ) < x)) = [1] := by
  constructor
  · decide
  · decide

/-- Claim C3 (amended): both builder variants terminate because each
recursive call strictly shrinks the candidate set being iterated and never
grows the other, so the combined size `|buys| + |sells|` strictly
decreases; the depth of the produced tree is at most `|buys| + |sells|`. -/
theorem C3_termination_depth :
    (∀ (buys sells : List ℕ) (b : ℕ), b ∈ buys →
      (buys.filter (fun x => decide (b < x))).length +
        (sells.filter (fun x => decide (b < x))).length < buys.length + sells.length) ∧
    (∀ (buys sells : List ℕ) (s : ℕ), s ∈ sells →
      (buys.filter (fun x => decide (s < x))).length +
        (sells.filter (fun x => decide (s < x))).length < buys.length + sells.length) ∧
    (∀ (td : ℕ → Price) (buys sells : List ℕ) (st : AState),
      Tr.depth (compute_all_possible_trading_strategies td buys sells st) ≤
        buys.length + sells.length) ∧
    (∀ (td : ℕ → Price) (buys sells : List ℕ) (st : SState),
      Tr.depth (compute_smart_possible_trading_strategies td buys sells st) ≤
        buys.length + sells.length) := by
  refine ⟨?_, ?_, ?_, ?_⟩
  · intro buys sells b hb
    have h1 := length_filter_lt_of_mem (b := b) hb
    have h2 : (sells.filter (fun x => decide (b < x))).length ≤ sells.length :=
      length_filter_le_self
    omega
  · intro buys sells s hs
    have h1 := length_filter_lt_of_mem (b := s) hs
    have h2 : (buys.filter (fun x => decide (s < x))).length ≤ buys.length :=
      length_filter_le_self
    omega
  · intro td buys sells st
    exact depth_computeAllFuel td _ _ _ _
  · intro td buys sells st
    exact depth_computeSmartFuel td _ _ _ _

/-- Witness for C3 at concrete candidate sets and states. -/
theorem C3_witness :
    (([0].filter (fun x => decide ((0 : ℕ) < x))).length +
        (([] : List ℕ).filter (fun x => decide ((0 : ℕ) < x))).length <
      [0].length + ([] : List ℕ).length) ∧
    ((([] : List ℕ).filter (fun x => decide ((1 : ℕ) < x))).length +
        ([1].filter (fun x => decide ((1 : ℕ) < x))).length <
      ([] : List ℕ).length + [1].length) ∧
    (Tr.depth (compute_all_possible_trading_strategies tdW [0] [1] (AState.cash 10)) ≤
      [0].length + [1].length) ∧
    (Tr.depth (compute_smart_possible_trading_strategies tdW [0] [1] (SState.cash 10 none)) ≤
      [0].length + [1].length) :=
  ⟨C3_termination_depth.1 [0] [] 0 (by decide),
   C3_termination_depth.2.1 [] [1] 1 (by decide),
   C3_termination_depth.2.2.1 tdW [0] [1] (AState.cash 10),
   C3_termination_depth.2.2.2 tdW [0] [1] (SState.cash 10 none)⟩

/-- Claim C5: in the pruned variant, at a Cash state the child edge labels
are exactly the eligible buy times whose ask price is strictly below the
remembered `sold_price` (`askLtSold`, with `none` the `+∞` used at the
root), at a Position state they are exactly the eligible sell times whose
bid price is strictly above `paid_price`, and every Position→Cash child
records the realized bid price as its new `sold_price`. -/
theorem C5_smart_pruning :
    (∀ (td : ℕ → Price) (buys sells : List ℕ) (m : ℚ) (sold : Option ℚ),
      (compute_smart_possible_trading_strategies td buys sells (.cash m sold)).children.map
          Prod.fst =
        buys.filter (fun b => askLtSold (td b).ask sold)) ∧
    (∀ (td : ℕ → Price) (buys sells : List ℕ) (a sav paid : ℚ),
      (compute_smart_possible_trading_strategies td buys sells (.pos a sav paid)).children.map
          Prod.fst =
        sells.filter (fun s => decide (paid < (td s).bid))) ∧
    (∀ (td : ℕ → Price) (buys sells : List ℕ) (a sav paid : ℚ) (s : ℕ) (c : Tr SState),
      (s, c) ∈ (compute_smart_possible_trading_strategies td buys sells (.pos a sav paid)).children →
        c.state = SState.cash (a * (td s).bid + sav) (some ((td s).bid))) := by
  refine ⟨?_, ?_, ?_⟩
  · intro td buys sells m sold
    rw [children_computeSmart_cash, List.map_map]
    exact (List.map_congr_left (fun a _ => rfl)).trans (List.map_id _)
  · intro td buys sells a sav paid
    rw [children_computeSmart_pos, List.map_map]
    exact (List.map_congr_left (fun a _ => rfl)).trans (List.map_id _)
  · intro td buys sells a sav paid s c hm
    rw [children_computeSmart_pos] at hm
    obtain ⟨s0, hs0, heq⟩ := List.mem_map.mp hm
    obtain ⟨h1, h2⟩ := Prod.mk.injEq .. ▸ heq
    subst h1
    rw [← h2, state_computeSmart]

/-- Witness for C5: the Position→Cash transition at sell time 1 of a
concrete pruned tree records `sold_price = bid`. -/
theorem C5_witness :
    Tr.state (compute_smart_possible_trading_strategies tdW
        (([] : List ℕ).filter (fun x => decide (1 < x)))
        ([1].filter (fun x => decide (1 < x)))
        (SState.cash (3 * (tdW 1).bid + 1) (some ((tdW 1).bid)))) =
      SState.cash (3 * (tdW 1).bid + 1) (some ((tdW 1).bid)) :=
  C5_smart_pruning.2.2 tdW [] [1] 3 1 0 1 _
    (by rw [children_computeSmart_pos]
        exact List.mem_map.mpr ⟨1, by decide, rfl⟩)

/-- Claim C10: in both variants, a buy taken with ask price strictly above
the available money (and money non-negative) is neither an error nor a
skipped branch: the edge exists, the resulting Position has
`asset_qty = 0` and keeps the entire money as `leftover_cash`
(`savings`), and the subtree below it is the full recursive computation on
the remaining candidates. -/
theorem C10_unaffordable_buy :
    (∀ (td : ℕ → Price) (buys sells : List ℕ) (m : ℚ) (b : ℕ), b ∈ buys → 0 ≤ m →
      m < (td b).ask →
      (b, compute_all_possible_trading_strategies td
            (buys.filter (fun x => decide (b < x)))
            (sells.filter (fun x => decide (b < x)))
            (.pos 0 m)) ∈
        (compute_all_possible_trading_strategies td buys sells (.cash m)).children) ∧
    (∀ (td : ℕ → Price) (buys sells : List ℕ) (m : ℚ) (sold : Option ℚ) (b : ℕ),
      b ∈ buys → askLtSold (td b).ask sold = true → 0 ≤ m → m < (td b).ask →
      (b, compute_smart_possible_trading_strategies td
            (buys.filter (fun x => decide (b < x)))
            (sells.filter (fun x => decide (b < x)))
            (.pos 0 m ((td b).ask))) ∈
        (compute_smart_possible_trading_strategies td buys sells (.cash m sold)).children) := by
  constructor
  · intro td buys sells m b hb hm hlt
    rw [children_computeAll_cash]
    refine List.mem_map.mpr ⟨b, hb, ?_⟩
    have h0 : ((⌊m / (td b).ask⌋ : ℤ) : ℚ) = 0 := by
      rw [floor_zero_of_lt hm hlt]; norm_num
    rw [h0]
    norm_num
  · intro td buys sells m sold b hb hsold hm hlt
    rw [children_computeSmart_cash]
    refine List.mem_map.mpr ⟨b, List.mem_filter.mpr ⟨hb, hsold⟩, ?_⟩
    have h0 : ((⌊m / (td b).ask⌋ : ℤ) : ℚ) = 0 := by
      rw [floor_zero_of_lt hm hlt]; norm_num
    rw [h0]
    norm_num

/-- Witness for C10 with money 2 against ask price 3. -/
theorem C10_witness :
    ((0, compute_all_possible_trading_strategies tdW
          ([0].filter (fun x => decide (0 < x)))
          (([] : List ℕ).filter (fun x => decide (0 < x)))
          (.pos 0 2)) ∈
        (compute_all_possible_trading_strategies tdW [0] [] (.cash 2)).children) ∧
    ((0, compute_smart_possible_trading_strategies tdW
          ([0].filter (fun x => decide (0 < x)))
          (([] : List ℕ).filter (fun x => decide (0 < x)))
          (.pos 0 2 ((tdW 0).ask))) ∈
        (compute_smart_possible_trading_strategies tdW [0] [] (.cash 2 none)).children) :=
  ⟨C10_unaffordable_buy.1 tdW [0] [] 2 0 (by decide) (by norm_num) (by norm_num [tdW]),
   C10_unaffordable_buy.2 tdW [0] [] 2 none 0 (by decide) rfl (by norm_num) (by norm_num [tdW])⟩

/-- Claim C2: every Cash→Position transition taken anywhere in a tree built
by either variant, at a buy time `b` with positive ask price and
non-negative money `m`, produces a Position whose quantity is a
non-negative integer, with `qty * ask + leftover = m` exactly and
`0 ≤ leftover < ask`. -/
theorem C2_conservation :
    (∀ (td : ℕ → Price) (buys sells : List ℕ) (st : AState) (u : Tr AState),
      Tr.Sub (compute_all_possible_trading_strategies td buys sells st) u →
      ∀ (m : ℚ), u.state = AState.cash m → 0 ≤ m →
      ∀ (b : ℕ) (c : Tr AState), (b, c) ∈ u.children → 0 < (td b).ask →
      ∃ q s, c.state = AState.pos q s ∧ q * (td b).ask + s = m ∧
        (∃ n : ℕ, q = (n : ℚ)) ∧ 0 ≤ s ∧ s < (td b).ask) ∧
    (∀ (td : ℕ → Price) (buys sells : List ℕ) (st : SState) (u : Tr SState),
      Tr.Sub (compute_smart_possible_trading_strategies td buys sells st) u →
      ∀ (m : ℚ) (sold : Option ℚ), u.state = SState.cash m sold → 0 ≤ m →
      ∀ (b : ℕ) (c : Tr SState), (b, c) ∈ u.children → 0 < (td b).ask →
      ∃ q s p, c.state = SState.pos q s p ∧ q * (td b).ask + s = m ∧
        (∃ n : ℕ, q = (n : ℚ)) ∧ 0 ≤ s ∧ s < (td b).ask) := by
  constructor
  · intro td buys sells st u hsub m hstate hm b c hmem hask
    obtain ⟨b', s', st', rfl⟩ := sub_computeAll td hsub buys sells st rfl
    rw [state_computeAll] at hstate
    subst hstate
    rw [children_computeAll_cash] at hmem
    obtain ⟨b0, hb0, heq⟩ := List.mem_map.mp hmem
    obtain ⟨hbb, hcc⟩ := Prod.mk.injEq .. ▸ heq
    subst hbb
    obtain ⟨h1, h2, h3, h4⟩ := buy_arith hm hask
    exact ⟨_, _, by rw [← hcc, state_computeAll], h1, h2, h3, h4⟩
  · intro td buys sells st u hsub m sold hstate hm b c hmem hask
    obtain ⟨b', s', st', rfl⟩ := sub_computeSmart td hsub buys sells st rfl
    rw [state_computeSmart] at hstate
    subst hstate
    rw [children_computeSmart_cash] at hmem
    obtain ⟨b0, hb0, heq⟩ := List.mem_map.mp hmem
    obtain ⟨hbb, hcc⟩ := Prod.mk.injEq .. ▸ heq
    subst hbb
    obtain ⟨h1, h2, h3, h4⟩ := buy_arith hm hask
    exact ⟨_, _, _, by rw [← hcc, state_computeSmart], h1, h2, h3, h4⟩

/-- Witness for C2: the root-level buy at time 0 with money 10 and ask 3. -/
theorem C2_witness :
    ∃ q s, Tr.state (compute_all_possible_trading_strategies tdW
        ([0].filter (fun x => decide (0 < x)))
        (([] : List ℕ).filter (fun x => decide (0 < x)))
        (.pos ((⌊(10 : ℚ) / (tdW 0).ask⌋ : ℤ) : ℚ)
              (10 - ((⌊(10 : ℚ) / (tdW 0).ask⌋ : ℤ) : ℚ) * (tdW 0).ask))) = AState.pos q s ∧
      q * (tdW 0).ask + s = 10 ∧ (∃ n : ℕ, q = (n : ℚ)) ∧ 0 ≤ s ∧ s < (tdW 0).ask :=
  C2_conservation.1 tdW [0] [] (.cash 10) _ (Tr.Sub.refl _) 10
    (state_computeAll tdW [0] [] (.cash 10)) (by norm_num) 0 _
    (by rw [children_computeAll_cash]
        exact List.mem_map.mpr ⟨0, by decide, rfl⟩)
    (by norm_num [tdW])

unseal Rat.sub Rat.add Rat.mul Rat.inv in
/-- Counterexample for claim C1 as stated: with the price table `tdC`
(ask 10 at time 0, bid 20 at time 1, ask 25 at time 3), buy candidates
`[0, 3]`, sell candidates `[1]` and starting money 20, the pruned tree has
a *leaf* Cash node with money 40 (buy at 0, sell at 1, after which the
only remaining buy time 3 is pruned because its ask 25 is not below the
sale price 20), but in the exhaustive tree the same Cash node still has a
child (buying at 3) and so is not a leaf; no leaf of the exhaustive tree
carries money 40. -/
theorem C1_counterexample :
    (40 : ℚ) ∈ Tr.leafVals SState.moneyVals
        (compute_smart_possible_trading_strategies tdC [0, 3] [1] (.cash 20 none)) ∧
    (40 : ℚ) ∉ Tr.leafVals AState.moneyVals
        (compute_all_possible_trading_strategies tdC [0, 3] [1] (.cash 20)) := by
  constructor
  · decide
  · decide

theorem smart_money_sub_all :
    ∀ (n : ℕ) (td : ℕ → Price) (buys sells : List ℕ) (st : SState),
      buys.length + sells.length ≤ n →
      ∀ q ∈ Tr.vals SState.moneyVals
          (compute_smart_possible_trading_strategies td buys sells st),
        q ∈ Tr.vals AState.moneyVals
          (compute_all_possible_trading_strategies td buys sells st.erase) := by
  intro n
  induction n with
  | zero =>
      intro td buys sells st hlen q hq
      have hb : buys = [] := List.length_eq_zero.mp (by omega)
      have hs : sells = [] := List.length_eq_zero.mp (by omega)
      subst hb; subst hs
      cases st with
      | cash m sold =>
          simp only [compute_smart_possible_trading_strategies, List.length_nil,
            computeSmartFuel, Tr.vals, Kids.vals, SState.moneyVals] at hq
          simp only [compute_all_possible_trading_strategies, List.length_nil, SState.erase,
            computeAllFuel, Tr.vals, Kids.vals, AState.moneyVals]
          simpa using hq
      | pos a sav paid =>
          simp only [compute_smart_possible_trading_strategies, List.length_nil,
            computeSmartFuel, Tr.vals, Kids.vals, SState.moneyVals] at hq
          simp at hq
  | succ n ih =>
      intro td buys sells st hlen q hq
      cases st with
      | cash m sold =>
          rw [computeSmart_cash, mem_vals_node] at hq
          simp only [SState.erase]
          rw [computeAll_cash, mem_vals_node]
          rcases hq with hq | ⟨p, hp, hq⟩
          · exact Or.inl (by simpa [SState.moneyVals, AState.moneyVals] using hq)
          · obtain ⟨b, hbf, rfl⟩ := List.mem_map.mp hp
            have hb : b ∈ buys := List.mem_of_mem_filter hbf
            have hlt := length_filter_lt_of_mem (b := b) hb
            have hle : (sells.filter (fun x => decide (b < x))).length ≤ sells.length :=
              length_filter_le_self
            have hq' := ih td (buys.filter (fun x => decide (b < x)))
              (sells.filter (fun x => decide (b < x)))
              (.pos ((⌊m / (td b).ask⌋ : ℤ) : ℚ)
                    (m - ((⌊m / (td b).ask⌋ : ℤ) : ℚ) * (td b).ask)
                    ((td b).ask))
              (by omega) q hq
            simp only [SState.erase] at hq'
            exact Or.inr ⟨_, List.mem_map.mpr ⟨b, hb, rfl⟩, hq'⟩
      | pos a sav paid =>
          rw [computeSmart_pos, mem_vals_node] at hq
          simp only [SState.erase]
          rw [computeAll_pos, mem_vals_node]
          rcases hq with hq | ⟨p, hp, hq⟩
          · simp [SState.moneyVals] at hq
          · obtain ⟨s, hsf, rfl⟩ := List.mem_map.mp hp
            have hs : s ∈ sells := List.mem_of_mem_filter hsf
            have hlt := length_filter_lt_of_mem (b := s) hs
            have hle : (buys.filter (fun x => decide (s < x))).length ≤ buys.length :=
              length_filter_le_self
            have hq' := ih td (buys.filter (fun x => decide (s < x)))
              (sells.filter (fun x => decide (s < x)))
              (.cash (a * (td s).bid + sav) (some ((td s).bid)))
              (by omega) q hq
            simp only [SState.erase] at hq'
            exact Or.inr ⟨_, List.mem_map.mpr ⟨s, hs, rfl⟩, hq'⟩

/-- Claim C1 (amended): every money value occurring at a *node* of the tree
produced by the pruned variant, started from `Cash{money, sold_price=+∞}`,
also occurs at some node of the tree produced by the exhaustive variant on
the same price table, candidate sets and starting money.  (As stated — with
"node" replaced by "leaf" — the claim is false, see `C1_counterexample`:
pruning can cut all children of a Cash node, turning it into a leaf whose
money value appears at no leaf of the exhaustive tree.) -/
theorem C1_amended_node_money (td : ℕ → Price) (buys sells : List ℕ) (money : ℚ) :
    ∀ q ∈ Tr.vals SState.moneyVals
        (compute_smart_possible_trading_strategies td buys sells (.cash money none)),
      q ∈ Tr.vals AState.moneyVals
        (compute_all_possible_trading_strategies td buys sells (.cash money)) := by
  intro q hq
  have h := smart_money_sub_all (buys.length + sells.length) td buys sells
    (.cash money none) le_rfl q hq
  simpa [SState.erase] using h

unseal Rat.sub Rat.add Rat.mul Rat.inv in
/-- Witness for C1 (amended) at the counterexample inputs: money 40 is
reached at a node of the pruned tree, hence at a node of the exhaustive
tree. -/
theorem C1_witness :
    (40 : ℚ) ∈ Tr.vals AState.moneyVals
        (compute_all_possible_trading_strategies tdC [0, 3] [1] (.cash 20)) :=
  C1_amended_node_money tdC [0, 3] [1] 20 40 (by decide)

/-! Signal-extractor claims. -/

unseal Rat.sub Rat.add Rat.mul Rat.inv in
/-- Counterexample for claim C7 as stated: on the bid column `[1, 2, 1, 2]`
the trend is `[1, -1, 1]` and the code selects time 1 (the series rises
then immediately falls, so `Δm` at time 2 is negative and the pandas
filter keeps the label time 1, whose own `Δm` entry is the undefined
`NaN` slot).  Time 1 is *not* in the spec's domain of `Δm`
(`t[2..n-1]`), so the set described by the claim is empty and differs
from the code's output `[1]`. -/
theorem C7_counterexample :
    find_reasonable_times_to_sell [1, 2, 1, 2] = some [1] ∧
      sell_times_spec [1, 2, 1, 2] = some [] := by
  constructor
  · decide
  · decide

theorem sell_pipeline :
    ∀ (m : List ℚ) (s t : ℕ),
      (t ∈ (((List.range' s m.length).zip ((diffs m).map some ++ [none])).filter
          (fun p => oltNeg p.2)).map Prod.fst) ↔
        ∃ k, k + 1 < m.length ∧ t = s + k ∧ m.getD (k + 1) 0 - m.getD k 0 < 0 := by
  intro m
  induction m with
  | nil =>
      intro s t
      simp [diffs]
  | cons a tail ih =>
      intro s t
      cases tail with
      | nil =>
          simp [diffs, oltNeg, List.range']
      | cons b rest =>
          have hdiffs : diffs (a :: b :: rest) = (b - a) :: diffs (b :: rest) := rfl
          have hlen : (a :: b :: rest).length = (b :: rest).length + 1 := rfl
          rw [hlen, List.range'_succ, hdiffs]
          simp only [List.map_cons, List.cons_append, List.zip_cons_cons, List.filter_cons]
          constructor
          · intro h
            by_cases hneg : b - a < 0
            · rw [if_pos (by simpa [oltNeg] using hneg)] at h
              simp only [List.map_cons] at h
              rcases List.mem_cons.mp h with rfl | h'
              · exact ⟨0, by simp, by omega, by simpa using hneg⟩
              · obtain ⟨k, hk, ht, hlt⟩ := (ih (s + 1) t).mp h'
                exact ⟨k + 1, by simpa using hk, by omega, by simpa using hlt⟩
            · rw [if_neg (by simpa [oltNeg] using hneg)] at h
              obtain ⟨k, hk, ht, hlt⟩ := (ih (s + 1) t).mp h
              exact ⟨k + 1, by simpa using hk, by omega, by simpa using hlt⟩
          · rintro ⟨k, hk, rfl, hlt⟩
            cases k with
            | zero =>
                simp only [List.getD_cons_succ, List.getD_cons_zero] at hlt
                rw [if_pos (by simpa [oltNeg] using hlt)]
                simp
            | succ k' =>
                have hmem : s + 1 + k' ∈ (((List.range' (s + 1) (b :: rest).length).zip
                    ((diffs (b :: rest)).map some ++ [none])).filter
                    (fun p => oltNeg p.2)).map Prod.fst :=
                  (ih (s + 1) (s + 1 + k')).mpr
                    ⟨k', by simpa using hk, rfl, by simpa using hlt⟩
                have harith : s + (k' + 1) = s + 1 + k' := by omega
                by_cases hneg : b - a < 0
                · rw [if_pos (by simpa [oltNeg] using hneg)]
                  simp only [List.map_cons]
                  rw [harith]
                  exact List.mem_cons_of_mem _ hmem
                · rw [if_neg (by simpa [oltNeg] using hneg)]
                  rw [harith]
                  exact hmem

/-- Claim C7 (amended): for a bid column with a well-defined trend `m`
(indexed 0-based, so the series time `t` carries `m[t-1]`), the
sell-candidate set consists exactly of the times `t` with `1 ≤ t` and
`t < m.length` — the full index of the pandas first-difference series
`Δm`, which retains the label `t = 1` with an undefined (`NaN`) entry,
rather than the spec's domain `t[2..n-1]` — such that `Δm` at the next
index, i.e. `m[t] - m[t-1]`, is negative. -/
theorem C7_sell_times_amended (price_bid : List ℚ) (m : List ℚ) (ts : List ℕ)
    (hm : find_monotonicity price_bid = some m)
    (hts : find_reasonable_times_to_sell price_bid = some ts) :
    ∀ t : ℕ, t ∈ ts ↔ (1 ≤ t ∧ t < m.length ∧ m.getD t 0 - m.getD (t - 1) 0 < 0) := by
  intro t
  have hts' : ts = (((List.range' 1 m.length).zip ((diffs m).map some ++ [none])).filter
      (fun p => oltNeg p.2)).map Prod.fst := by
    unfold find_reasonable_times_to_sell at hts
    rw [hm] at hts
    exact (Option.some.inj hts).symm
  rw [hts', sell_pipeline]
  constructor
  · rintro ⟨k, hk, rfl, hlt⟩
    refine ⟨by omega, by omega, ?_⟩
    have h1 : 1 + k - 1 = k := by omega
    have h2 : 1 + k = k + 1 := by omega
    rw [h1, h2]
    exact hlt
  · rintro ⟨ht1, htlen, hlt⟩
    refine ⟨t - 1, by omega, by omega, ?_⟩
    have h2 : t - 1 + 1 = t := by omega
    rw [h2]
    exact hlt

unseal Rat.sub Rat.add Rat.mul Rat.inv in
/-- Witness for C7 (amended) on the bid column `[1, 2, 1, 2]`: time 1 is in
the returned sell-candidate list and satisfies the characterization. -/
theorem C7_witness :
    (1 ∈ ([1] : List ℕ)) ↔
      (1 ≤ 1 ∧ 1 < ([1, -1, 1] : List ℚ).length ∧
        ([1, -1, 1] : List ℚ).getD 1 0 - ([1, -1, 1] : List ℚ).getD (1 - 1) 0 < 0) :=
  C7_sell_times_amended [1, 2, 1, 2] [1, -1, 1] [1] (by decide) (by decide) 1

end Trading
